import Mathlib

/-!
Verification of the rotail log-tailing core.

This file gives a shallow embedding of the pure parts of the rotail
repository (package `tailer`: internal/tailer/file.go and the directory
tailer of the same package, plus internal/run/config.go) and settles the
claims C1..C10 about it.

File contents are modelled as `List Char` (one element per byte of the
Go string; all claims concern ASCII data, where the two coincide).
Channels of emitted lines are modelled as Lean lists in emission order.
-/

namespace Rotail

/-- Model of Go's unicode.IsSpace, as used by strings.TrimSpace:
the Latin-1 white space runes and the White_Space property runes. -/
def isSpaceGo (c : Char) : Bool :=
  c.val = 9 || c.val = 10 || c.val = 11 || c.val = 12 || c.val = 13 ||
  c.val = 32 || c.val = 0x85 || c.val = 0xA0 ||
  c.val = 0x1680 || (0x2000 ≤ c.val && c.val ≤ 0x200A) ||
  c.val = 0x2028 || c.val = 0x2029 || c.val = 0x202F ||
  c.val = 0x205F || c.val = 0x3000

/-- Leading-whitespace trim (the left half of strings.TrimSpace). -/
def trimLeft (cs : List Char) : List Char :=
  cs.dropWhile isSpaceGo

/-- Trailing-whitespace trim (the right half of strings.TrimSpace). -/
def trimRight (cs : List Char) : List Char :=
  (cs.reverse.dropWhile isSpaceGo).reverse

/-- Model of strings.TrimSpace: drop white space from both ends. -/
def trimSpace (cs : List Char) : List Char :=
  trimRight (trimLeft cs)

/-- Split a character list at every occurrence of the separator, the
separators themselves not kept; models strings.Split with a one-rune
separator (also the newline decomposition of a file's content).
The accumulator holds the current field reversed. -/
def splitAux (sep : Char) (acc : List Char) : List Char → List (List Char)
  | [] => [acc.reverse]
  | c :: cs =>
    if c = sep then acc.reverse :: splitAux sep [] cs
    else splitAux sep (c :: acc) cs

/-- strings.Split s sep for a one-rune separator. -/
def splitOnChar (sep : Char) (cs : List Char) : List (List Char) :=
  splitAux sep [] cs

/-- Model of slices.Contains on a list of strings. -/
def slicesContains : List (List Char) → List Char → Bool
  | [], _ => false
  | e :: es, x => if e = x then true else slicesContains es x

/-- Scan a reversed path for the extension: walk from the end of the
name, stop at a path separator, return from the last dot onward.
The accumulator holds, in order, the characters already passed. -/
def extAux (acc : List Char) : List Char → List Char
  | [] => []
  | c :: cs =>
    if c = '/' then []
    else if c = '.' then '.' :: acc
    else extAux (c :: acc) cs

/-- Model of filepath.Ext: the suffix of the final path element
beginning at its final dot; empty when there is no dot. -/
def filepathExt (cs : List Char) : List Char :=
  extAux [] cs.reverse

/-- Model of filepath.Join dir name for an already-clean absolute dir
and a plain entry name. -/
def joinPath (dir name : List Char) : List Char :=
  dir ++ '/' :: name

/-- Byte-wise lexicographic order on names, the order in which
os.ReadDir returns directory entries. -/
def lexLe : List Char → List Char → Bool
  | [], _ => true
  | _ :: _, [] => false
  | a :: as, b :: bs =>
    if a < b then true
    else if b < a then false
    else lexLe as bs

/-! ## FileTailer: readLines and the event handlers

fileTailer.readLines (internal/tailer/file.go:370) repeatedly calls
bufio.Reader.ReadString('\n') on the open handle starting at the
current offset, until the read that returns io.EOF; each returned
chunk is passed through strings.TrimSpace and sent on the line channel
unless the trimmed result is empty; after the loop the underlying file
position, and hence lastOffset, stands at the end of the file. -/

/-- The per-chunk emission of readLines: TrimSpace the chunk, send it
only when the result is non-empty. -/
def emitLine (line : List Char) : List (List Char) :=
  let t := trimSpace line
  if t = [] then [] else [t]

/-- The ReadString('\n') loop of fileTailer.readLines on the unread
remainder of the file. The accumulator holds, reversed, the characters
of the line read so far. Reaching the end of input is the io.EOF read:
the partial chunk is emitted (trimmed) and the loop breaks. -/
def readLoop (acc : List Char) : List Char → List (List Char)
  | [] => emitLine acc.reverse
  | c :: cs =>
    if c = '\n' then emitLine (acc.reverse ++ ['\n']) ++ readLoop [] cs
    else readLoop (c :: acc) cs

/-- fileTailer.readLines: reads from the given offset to the end of
the file, returning the emitted lines and the final value of
lastOffset (the end-of-file position). -/
def readLines (content : List Char) (offset : Nat) : List (List Char) × Nat :=
  (readLoop [] (content.drop offset), content.length)

/-- The offset/size bookkeeping of a fileTailer
(lastOffset and lastSize of internal/tailer/file.go). -/
structure FileState where
  lastOffset : Nat
  lastSize : Nat
  deriving DecidableEq, Repr

/-- A filesystem notification delivered to the file tailer's loop,
together with the file content visible when the handler re-stats or
reopens the path. -/
inductive FsEvent
  | write (content : List Char)
  | rotate (content : List Char)
  deriving DecidableEq, Repr

/-- fileTailer.readOnWriteEvent (internal/tailer/file.go:282): re-stat
the file, record its size; equal offset and size: nothing to do;
offset below size: readLines from the current offset; offset above
size: truncation, seek to the start (an assignment of 0 to lastOffset)
and readLines from there. Returns the emitted lines, the successive
values assigned to lastOffset, and the new state. -/
def readOnWriteEvent (st : FileState) (content : List Char) :
    List (List Char) × List Nat × FileState :=
  let size := content.length
  if st.lastOffset = size then
    ([], [], ⟨st.lastOffset, size⟩)
  else if st.lastOffset < size then
    ((readLines content st.lastOffset).1, [content.length], ⟨content.length, size⟩)
  else
    ((readLines content 0).1, [0, content.length], ⟨content.length, size⟩)

/-- fileTailer.readOnCreateRenameRemoveEvent together with reInitFile
(internal/tailer/file.go:310, 330): close and reopen the path, record
the new size, seek to the start (lastOffset := 0), then one immediate
readLines pass. -/
def readOnRotateEvent (st : FileState) (content : List Char) :
    List (List Char) × List Nat × FileState :=
  let _ := st
  ((readLines content 0).1, [0, content.length], ⟨content.length, content.length⟩)

/-- Dispatch of one notification in fileTailer.runProduce's loop. -/
def handleEvent (st : FileState) : FsEvent → List (List Char) × List Nat × FileState
  | .write c => readOnWriteEvent st c
  | .rotate c => readOnRotateEvent st c

/-- The successive values assigned to lastOffset over a run of the
event loop from a given state. -/
def runAssigns (st : FileState) : List FsEvent → List Nat
  | [] => []
  | e :: rest =>
    let (_, assigns, st') := handleEvent st e
    assigns ++ runAssigns st' rest

/-- The lines emitted over a run of the event loop from a given state. -/
def loopEmits (st : FileState) : List FsEvent → List (List Char)
  | [] => []
  | e :: rest =>
    let (em, _, st') := handleEvent st e
    em ++ loopEmits st' rest

/-- fileTailer.runProduce restricted to its emissions: when the tailer
was built with the withImmediate option the loop is preceded by one
readLines pass over the file as opened (runProduce performs this pass
before first waiting on watcher events); then the event loop runs. -/
def runProduceEmits (immediate : Bool) (initContent : List Char)
    (st : FileState) (events : List FsEvent) : List (List Char) :=
  if immediate then
    let (em, off) := readLines initContent st.lastOffset
    em ++ loopEmits ⟨off, st.lastSize⟩ events
  else
    loopEmits st events

/-! ## Multi-pass append-only tailing (claim C1)

A file written to by appended chunks, with the tailer receiving one
write notification per chunk.  The tailer starts at offset 0 on the
then-empty file; before pass k the on-disk content is the
concatenation of the first k-1 chunks and the offset stands at its
length (every pass reads to end of file). -/

/-- Drive one write-event pass per appended chunk.  done is the
content already on disk; each chunk is appended and the write handler
runs on the grown file. -/
def drivePasses (st : FileState) (done : List Char) :
    List (List Char) → List (List Char)
  | [] => []
  | ch :: rest =>
    let (em, _, st') := readOnWriteEvent st (done ++ ch)
    em ++ drivePasses st' (done ++ ch) rest

/-- All lines emitted by a file tailer that starts on an empty file at
offset 0 and receives one write notification after each appended chunk. -/
def tailEmitAll (chunks : List (List Char)) : List (List Char) :=
  drivePasses ⟨0, 0⟩ [] chunks

/-- Modelled from the claim's words, for comparison (not from the
source): the file's newline-delimited content with, for each line,
only its trailing newline stripped — empty lines and surrounding
whitespace kept; a trailing newline terminates the last line rather
than opening an empty one. -/
def strippedLines (cs : List Char) : List (List Char) :=
  let segs := splitOnChar '\n' cs
  if cs.getLast? = some '\n' then segs.dropLast else segs

/-- What the code actually emits for a whole content read in one pass:
the newline-separated segments, each passed through TrimSpace, the
segments that trim to empty dropped. -/
def specLines (cs : List Char) : List (List Char) :=
  ((splitOnChar '\n' cs).map trimSpace).filter (fun l => l ≠ [])

/-! ## FileTailer start-up (claim C6)

fileTailer.producer (internal/tailer/file.go:141) runs initFile then
initWatcher and spawns the worker; each step is fallible.  The model
takes an oracle of step outcomes and returns which resources are held
when producer returns, plus the returned error. -/

/-- Outcome oracle for the fallible start-up steps. -/
structure InitOutcome where
  openOk : Bool
  statOk : Bool
  pathIsDir : Bool
  seekOk : Bool
  watcherNewOk : Bool
  watchAddOk : Bool
  deriving DecidableEq, Repr

/-- The error producer returns, by failing step. -/
inductive StartErr
  | openErr
  | statErr
  | isDirErr
  | seekErr
  | watcherNewErr
  | watchAddErr
  deriving DecidableEq, Repr

/-- Resources held and error returned when producer comes back. -/
structure StartResult where
  fileOpen : Bool
  watcherOpen : Bool
  workerSpawned : Bool
  err : Option StartErr
  deriving DecidableEq, Repr

/-- fileTailer.producer: os.Open (on success the handle is stored in
ft.file), Stat, the directory check, the initial Seek, then
fsnotify.NewWatcher (stored in ft.watcher) and watcher.Add; the first
failure is returned at once.  No release of the already-acquired
handle or watcher happens on these error paths: the deferred cleanup
lives in runProduce, which is only spawned after every step succeeded. -/
def producer (o : InitOutcome) : StartResult :=
  if ¬o.openOk then ⟨false, false, false, some .openErr⟩
  else if ¬o.statOk then ⟨true, false, false, some .statErr⟩
  else if o.pathIsDir then ⟨true, false, false, some .isDirErr⟩
  else if ¬o.seekOk then ⟨true, false, false, some .seekErr⟩
  else if ¬o.watcherNewOk then ⟨true, false, false, some .watcherNewErr⟩
  else if ¬o.watchAddOk then ⟨true, true, false, some .watchAddErr⟩
  else ⟨true, true, true, none⟩

/-! ## runProduce as an output trace (claim C7)

The worker's loop selects among cancellation, the watcher's event
channel, and the watcher's error channel; handling an event may emit
lines and may fail with an I/O error; any failure is pushed through
sendError (a non-blocking send into the 1-slot error channel, dropped
when the slot is full) and ends the loop; the deferred epilogue closes
the line channel and then the error channel. -/

/-- One wake-up of the runProduce loop.  fsEvErr is an event whose
handling emitted some lines and then failed with an I/O error. -/
inductive FtIn
  | ctxDone
  | eventsClosed
  | fsEvOk (e : FsEvent)
  | fsEvErr (pre : List (List Char)) (code : Nat)
  | watchErr (code : Nat)
  | watchErrsClosed
  deriving Repr

/-- Observable outputs of the worker. -/
inductive FtOut
  | line (l : List Char)
  | deliverErr (code : Nat)
  | closeLines
  | closeErrors
  deriving DecidableEq, Repr

/-- fileTailer.sendError: non-blocking send into the capacity-1 error
channel; when the slot is already full the error is dropped. -/
def sendErrorOuts (full : Bool) (code : Nat) : List FtOut :=
  if full then [] else [.deliverErr code]

/-- The for-select loop of fileTailer.runProduce: return on
cancellation or a closed channel; emit the lines of a successful pass
and keep looping; on a failed pass or a watcher error, sendError and
return. -/
def loopWork (full : Bool) (st : FileState) : List FtIn → List FtOut
  | [] => []
  | .ctxDone :: _ => []
  | .eventsClosed :: _ => []
  | .fsEvOk e :: rest =>
    let (em, _, st') := handleEvent st e
    em.map .line ++ loopWork full st' rest
  | .fsEvErr pre code :: _ => pre.map .line ++ sendErrorOuts full code
  | .watchErr code :: _ => sendErrorOuts full code
  | .watchErrsClosed :: _ => []

/-- fileTailer.runProduce's observable output: the loop's outputs
followed by the deferred close of the line channel and then of the
error channel.  The error slot starts empty on a fresh tailer. -/
def runProduceOuts (st : FileState) (ins : List FtIn) : List FtOut :=
  loopWork false st ins ++ [.closeLines, .closeErrors]

/-! ## DirTailer: scanner and create-event handler

dirTailer (package tailer, the directory-tailing sibling of
internal/tailer/file.go) scans its directory for the candidate file
and swaps the active fileTailer on create notifications. -/

/-- One entry of an os.ReadDir listing: its name and whether it is a
sub-directory. -/
structure Entry where
  name : List Char
  isDir : Bool
  deriving DecidableEq, Repr

/-- Result of the directory scan: the candidate path, or the
distinguished errFileNotFoundInDir condition (never an I/O error in
this model, where the listing itself is given). -/
inductive FindResult
  | found (path : List Char)
  | notFound
  deriving DecidableEq, Repr

/-- The reverse loop of dirTailer.findLatestFile, run here on the
already-reversed listing: skip sub-directories, return the first entry
whose filepath.Ext is contained in the allow-list. -/
def findAux (exts : List (List Char)) : List Entry → Option (List Char)
  | [] => none
  | e :: rest =>
    if e.isDir then findAux exts rest
    else if slicesContains exts (filepathExt e.name) then some e.name
    else findAux exts rest

/-- dirTailer.findLatestFile: walk the os.ReadDir listing backwards;
the first entry that is not a directory and whose extension is in the
allow-list wins and is joined to the directory path; otherwise report
errFileNotFoundInDir. -/
def findLatestFile (dir : List Char) (exts : List (List Char))
    (entries : List Entry) : FindResult :=
  match findAux exts entries.reverse with
  | some n => .found (joinPath dir n)
  | none => .notFound

/-- Whence values of the seek configuration (io.SeekStart / io.SeekEnd). -/
inductive Whence
  | seekStart
  | seekEnd
  deriving DecidableEq, Repr

/-- The configuration a fileTailer is constructed with by the
dirTailer: its path, the withSeekOffset option, and whether
withImmediate was applied. -/
structure TailerCfg where
  path : List Char
  seekOffset : Nat
  whence : Whence
  immediate : Bool
  deriving DecidableEq, Repr

/-- The dirTailer state the create handler touches: the currently
active fileTailer, when any. -/
structure DirState where
  active : Option TailerCfg
  deriving DecidableEq, Repr

/-- The externally visible steps the create handler performs, in
order.  cancelTailer and awaitTailer together are fileTailer.close
(internal/tailer/file.go:411): cancel the worker's context, then
wg.Wait until the worker has exited. -/
inductive DirAct
  | cancelTailer (path : List Char)
  | awaitTailer (path : List Char)
  | createTailer (cfg : TailerCfg)
  | startProducer (path : List Char)
  | attachRelay (path : List Char)
  deriving DecidableEq, Repr

/-- dirTailer.readOnCreateEvent: stat the created name and ignore
sub-directories; ignore names whose extension is not allowed;
recompute the candidate with findLatestFile (a notFound there is
returned as an error); when a tailer is active and already on the
candidate, do nothing; otherwise close the active tailer fully, then
construct a new fileTailer with withSeekOffset(0, io.SeekStart) and
withImmediate, run its producer and attach the channel relay. -/
def readOnCreateEvent (st : DirState) (dir : List Char)
    (eventName : List Char) (eventIsDir : Bool)
    (exts : List (List Char)) (entries : List Entry) :
    DirState × List DirAct × Bool :=
  if eventIsDir then (st, [], false)
  else if ¬slicesContains exts (filepathExt eventName) then (st, [], false)
  else
    match findLatestFile dir exts entries with
    | .notFound => (st, [], true)
    | .found newPath =>
      let cfg : TailerCfg := ⟨newPath, 0, .seekStart, true⟩
      let buildActs : List DirAct :=
        [.createTailer cfg, .startProducer newPath, .attachRelay newPath]
      match st.active with
      | some a =>
        if a.path = newPath then (st, [], false)
        else
          (⟨some cfg⟩,
           .cancelTailer a.path :: .awaitTailer a.path :: buildActs, false)
      | none => (⟨some cfg⟩, buildActs, false)

/-! ## Flag parsing (claim C10) -/

/-- The Extensions field of run.ParseFlags: the -ext flag value split
on commas, verbatim. -/
def parseExtensions (flagValue : List Char) : List (List Char) :=
  splitOnChar ',' flagValue

/-- The extension test both dirTailer.findLatestFile and
dirTailer.readOnCreateEvent apply to a name:
slices.Contains(extensions, filepath.Ext(name)). -/
def extMatch (exts : List (List Char)) (name : List Char) : Bool :=
  slicesContains exts (filepathExt name)

/-! ## Lemmas about trimming and line splitting -/

lemma dropWhile_append_of_ne_nil (p : Char → Bool) :
    ∀ (x y : List Char), x.dropWhile p ≠ [] →
      (x ++ y).dropWhile p = x.dropWhile p ++ y := by
  intro x y h
  induction x with
  | nil => simp [List.dropWhile] at h
  | cons c x ih =>
    by_cases hc : p c
    · simp only [List.cons_append, List.dropWhile_cons, hc, if_true] at h ⊢
      exact ih h
    · simp [List.dropWhile_cons, hc]

lemma dropWhile_append_of_eq_nil (p : Char → Bool) :
    ∀ (x y : List Char), x.dropWhile p = [] →
      (x ++ y).dropWhile p = y.dropWhile p := by
  intro x y h
  induction x with
  | nil => simp
  | cons c x ih =>
    by_cases hc : p c
    · simp only [List.dropWhile_cons, hc, if_true] at h
      simp only [List.cons_append, List.dropWhile_cons, hc, if_true]
      exact ih h
    · simp [List.dropWhile_cons, hc] at h

lemma trimRight_append_space {c : Char} (hc : isSpaceGo c = true)
    (x : List Char) : trimRight (x ++ [c]) = trimRight x := by
  simp [trimRight, List.dropWhile_cons, hc]

lemma trimSpace_append_space {c : Char} (hc : isSpaceGo c = true)
    (x : List Char) : trimSpace (x ++ [c]) = trimSpace x := by
  by_cases h : x.dropWhile isSpaceGo = []
  · simp [trimSpace, trimLeft, trimRight,
      dropWhile_append_of_eq_nil isSpaceGo x [c] h, h, List.dropWhile, hc]
  · simp only [trimSpace, trimLeft,
      dropWhile_append_of_ne_nil isSpaceGo x [c] h]
    exact trimRight_append_space hc _

lemma emitLine_append_newline (x : List Char) :
    emitLine (x ++ ['\n']) = emitLine x := by
  have : isSpaceGo '\n' = true := by decide
  simp [emitLine, trimSpace_append_space this]

lemma emitLine_nil : emitLine [] = [] := rfl

lemma readLoop_cons_newline (acc t : List Char) :
    readLoop acc ('\n' :: t) = emitLine (acc.reverse ++ ['\n']) ++ readLoop [] t := by
  simp [readLoop]

lemma splitAux_cons_sep (sep : Char) (acc t : List Char) :
    splitAux sep acc (sep :: t) = acc.reverse :: splitAux sep [] t := by
  simp [splitAux]

/-- The ReadString loop emits exactly the newline-separated segments
of the remaining input, each trimmed, with blank results dropped. -/
lemma readLoop_eq_splitAux :
    ∀ (cs acc : List Char),
      readLoop acc cs =
        ((splitAux '\n' acc cs).map trimSpace).filter (fun l => l ≠ []) := by
  intro cs
  induction cs with
  | nil =>
    intro acc
    by_cases h : trimSpace acc.reverse = [] <;>
      simp [readLoop, splitAux, emitLine, h]
  | cons c cs ih =>
    intro acc
    by_cases hc : c = '\n'
    · subst hc
      rw [readLoop_cons_newline, splitAux_cons_sep,
        emitLine_append_newline, ih []]
      by_cases h : trimSpace acc.reverse = [] <;>
        simp [emitLine, h]
    · simp only [readLoop, splitAux, if_neg hc]
      exact ih (c :: acc)

lemma readLoop_eq_specLines (cs : List Char) :
    readLoop [] cs = specLines cs :=
  readLoop_eq_splitAux cs []

/-- Reading input whose first part ends with a newline decomposes into
reading that part and then the rest: a pass cut at a line boundary
neither loses, duplicates, nor splits a line. -/
lemma readLoop_append_newline :
    ∀ (a acc b : List Char),
      readLoop acc (a ++ '\n' :: b) =
        readLoop acc (a ++ ['\n']) ++ readLoop [] b := by
  intro a
  induction a with
  | nil =>
    intro acc b
    simp [readLoop, emitLine_nil]
  | cons c a ih =>
    intro acc b
    by_cases hc : c = '\n'
    · subst hc
      simp only [List.cons_append, readLoop_cons_newline, List.append_assoc]
      rw [ih [] b]
    · simp only [List.cons_append, readLoop, if_neg hc]
      exact ih (c :: acc) b

/-- An append-only run whose offset tracks the on-disk length reads
exactly each appended chunk: pass k emits the ReadString loop over
chunk k alone. -/
lemma drivePasses_eq :
    ∀ (chunks : List (List Char)) (done : List Char) (s : Nat),
      drivePasses ⟨done.length, s⟩ done chunks
        = (chunks.map fun ch => readLoop [] ch).flatten := by
  intro chunks
  induction chunks with
  | nil => intro done s; rfl
  | cons ch rest ih =>
    intro done s
    by_cases hch : ch = []
    · subst hch
      simp only [drivePasses, List.append_nil]
      have h1 : readOnWriteEvent ⟨done.length, s⟩ done =
          ([], [], ⟨done.length, done.length⟩) := by
        simp [readOnWriteEvent]
      rw [h1]
      simp only [List.nil_append]
      rw [ih done done.length]
      have h2 : readLoop [] ([] : List Char) = [] := rfl
      simp [h2]
    · have hlt : done.length < (done ++ ch).length := by
        simp only [List.length_append]
        have : 0 < ch.length := List.length_pos.mpr hch
        omega
      have hne : ¬(done.length = (done ++ ch).length) := Nat.ne_of_lt hlt
      simp only [drivePasses, readOnWriteEvent, readLines, if_neg hne,
        if_pos hlt]
      rw [List.drop_left done ch, ih (done ++ ch) (done ++ ch).length]
      simp

/-- When every write chunk ends at a line boundary, reading the chunks
one pass at a time is the same as reading the whole content once. -/
lemma flatten_readLoop_of_newline_chunks :
    ∀ (chunks : List (List Char)),
      (∀ ch ∈ chunks, ch = [] ∨ ∃ a, ch = a ++ ['\n']) →
      (chunks.map fun ch => readLoop [] ch).flatten
        = readLoop [] chunks.flatten := by
  intro chunks
  induction chunks with
  | nil => intro _; rfl
  | cons ch rest ih =>
    intro h
    have hch := h ch (List.mem_cons_self ch rest)
    have hrest := ih fun c hc => h c (List.mem_cons_of_mem ch hc)
    rcases hch with hnil | ⟨a, ha⟩
    · subst hnil
      simp only [List.map_cons, List.flatten_cons, List.nil_append]
      rw [hrest]
      rfl
    · subst ha
      simp only [List.map_cons, List.flatten_cons, List.append_assoc,
        List.singleton_append]
      rw [readLoop_append_newline a [] rest.flatten, hrest]

/-- Splitting a separator-free field followed by one separator yields
exactly that field and one empty trailing field. -/
lemma splitAux_no_sep (sep : Char) :
    ∀ (l acc : List Char), (∀ c ∈ l, c ≠ sep) →
      splitAux sep acc (l ++ [sep]) = [acc.reverse ++ l, []] := by
  intro l
  induction l with
  | nil =>
    intro acc _
    simp [splitAux]
  | cons c l ih =>
    intro acc h
    have hc : c ≠ sep := h c (List.mem_cons_self c l)
    have hl : ∀ x ∈ l, x ≠ sep := fun x hx => h x (List.mem_cons_of_mem c hx)
    simp only [List.cons_append, splitAux, if_neg hc]
    show splitAux sep (c :: acc) (l ++ [sep]) = [acc.reverse ++ c :: l, []]
    rw [ih (c :: acc) hl]
    simp

/-! ## Claim C1 -/

/-- C1: the claim asserts that for every sequence of appended write
chunks the emitted lines are exactly the file's newline-delimited
lines with only the trailing newline stripped, empty lines included.
False: the single chunk consisting of one bare newline puts one empty
line on disk, yet the tailer emits nothing, because readLines passes
every chunk through strings.TrimSpace and drops blank results. -/
theorem c1_counterexample :
    tailEmitAll [['\n']] ≠ strippedLines ['\n'] := by decide

/-- C1 (amended): when every appended chunk ends at a line boundary,
the emitted sequence equals the file's newline-delimited lines in
on-disk order with each line trimmed of leading and trailing
whitespace and lines that trim to empty omitted — no surviving line is
duplicated, omitted, or split.  (Without the boundary condition a pass
can also emit the partial last line early, splitting it.) -/
theorem c1_amended (chunks : List (List Char))
    (h : ∀ ch ∈ chunks, ch = [] ∨ ∃ a, ch = a ++ ['\n']) :
    tailEmitAll chunks = specLines chunks.flatten := by
  have h0 := drivePasses_eq chunks ([] : List Char) 0
  simp only [List.length_nil] at h0
  show drivePasses ⟨0, 0⟩ [] chunks = specLines chunks.flatten
  rw [h0, flatten_readLoop_of_newline_chunks chunks h, readLoop_eq_specLines]

/-- C1 witness: a two-chunk run, the second chunk carrying interior
whitespace and a blank line. -/
theorem c1_witness :
    tailEmitAll [['a', '\n'], [' ', 'b', ' ', '\n', '\n']] = [['a'], ['b']] := by
  have h := c1_amended [['a', '\n'], [' ', 'b', ' ', '\n', '\n']] (by
    intro ch hch
    simp only [List.mem_cons, List.not_mem_nil, or_false] at hch
    rcases hch with h1 | h1
    · exact Or.inr ⟨['a'], by rw [h1]; rfl⟩
    · exact Or.inr ⟨[' ', 'b', ' ', '\n'], by rw [h1]; rfl⟩)
  rw [h]
  decide

/-! ## Claim C2 -/

/-- C2: the claim asserts that after truncation to any size M < N
followed by one appended line L, the tailer emits exactly L.  False:
with N = 6 (content "ab\ncd\n", offset 6), truncation to M = 3 and the
appended line "ef" bring the size back to 6; readOnWriteEvent sees
offset = size and emits nothing at all, L included. -/
theorem c2_counterexample :
    (readOnWriteEvent ⟨6, 6⟩
        ((['a', 'b', '\n', 'c', 'd', '\n'].take 3) ++ ['e', 'f'] ++ ['\n'])).1 = []
    ∧ ([] : List (List Char)) ≠ [['e', 'f']] := by decide

/-- C2 (amended): with the offset at N, after truncation to M < N and
one appended newline-terminated line L, the next write notification
detects the truncation only when the resulting size is still below N;
in that case the tailer rewinds to offset 0 and re-reads the whole
current content, emitting every line of it that survives TrimSpace —
the retained pre-truncation prefix included.  This is exactly L alone
when the file was truncated to empty (M = 0) and L is not blank. -/
theorem c2_amended (co l : List Char) (M : Nat) (sN : Nat)
    (hlen : (co.take M ++ l ++ ['\n']).length < co.length) :
    (readOnWriteEvent ⟨co.length, sN⟩ (co.take M ++ l ++ ['\n'])).1
        = specLines (co.take M ++ l ++ ['\n'])
    ∧ (readOnWriteEvent ⟨co.length, sN⟩ (co.take M ++ l ++ ['\n'])).2.1
        = [0, (co.take M ++ l ++ ['\n']).length]
    ∧ (M = 0 → (∀ c ∈ l, c ≠ '\n') → trimSpace l ≠ [] →
        (readOnWriteEvent ⟨co.length, sN⟩ (co.take M ++ l ++ ['\n'])).1
          = [trimSpace l]) := by
  set cn := co.take M ++ l ++ ['\n'] with hcn
  have hne : ¬(co.length = cn.length) := by omega
  have hnlt : ¬(co.length < cn.length) := by omega
  have hmain : readOnWriteEvent ⟨co.length, sN⟩ cn =
      ((readLines cn 0).1, [0, cn.length], ⟨cn.length, cn.length⟩) := by
    simp [readOnWriteEvent, if_neg hne, if_neg hnlt]
  have hemit : (readLines cn 0).1 = specLines cn := by
    simp only [readLines, List.drop_zero]
    exact readLoop_eq_specLines cn
  refine ⟨by rw [hmain, hemit], by rw [hmain], ?_⟩
  intro hM hnl htrim
  rw [hmain, hemit]
  have hcn0 : cn = l ++ ['\n'] := by
    rw [hcn, hM]
    simp
  rw [hcn0]
  simp only [specLines, splitOnChar, List.append_assoc, List.singleton_append]
  rw [show l ++ ['\n'] = l ++ ['\n'] from rfl, splitAux_no_sep '\n' l [] hnl]
  have htn : trimSpace [] = [] := rfl
  simp [htrim, htn]

/-- C2 witness: "aaaa\n" (N = 5, offset 5) truncated to empty, then
"b\n" appended; the next write pass emits exactly "b". -/
theorem c2_witness :
    (readOnWriteEvent ⟨5, 5⟩
        ((['a', 'a', 'a', 'a', '\n'].take 0) ++ ['b'] ++ ['\n'])).1 = [['b']] := by
  have h := c2_amended ['a', 'a', 'a', 'a', '\n'] ['b'] 0 5 (by decide)
  exact h.2.2 rfl (by decide) (by decide)

/-! ## Claim C3 -/

lemma lexLe_antisymm :
    ∀ (a b : List Char), lexLe a b = true → lexLe b a = true → a = b := by
  intro a
  induction a with
  | nil =>
    intro b _ hba
    cases b with
    | nil => rfl
    | cons d bs => simp [lexLe] at hba
  | cons c as ih =>
    intro b hab hba
    cases b with
    | nil => simp [lexLe] at hab
    | cons d bs =>
      by_cases h1 : c < d
      · simp [lexLe, h1, lt_asymm h1] at hba
      · by_cases h2 : d < c
        · simp [lexLe, h1, h2] at hab
        · have hcd : c = d := le_antisymm (not_lt.mp h2) (not_lt.mp h1)
          subst hcd
          simp only [lexLe, if_neg h1, if_neg h2] at hab hba
          rw [ih bs hab hba]

lemma findAux_eq_none (exts : List (List Char)) :
    ∀ l : List Entry,
      (∀ e ∈ l, e.isDir = true ∨ slicesContains exts (filepathExt e.name) = false) →
      findAux exts l = none := by
  intro l
  induction l with
  | nil => intro _; rfl
  | cons x rest ih =>
    intro h
    have hrest := ih fun e he => h e (List.mem_cons_of_mem x he)
    rcases h x (List.mem_cons_self x rest) with hdir | hcont
    · simp [findAux, hdir, hrest]
    · by_cases hd : x.isDir
      · simp [findAux, hd, hrest]
      · simp [findAux, hd, hcont, hrest]

/-- On a name-descending listing, the reverse-scan returns the first
matching entry, which is the greatest matching name. -/
lemma findAux_first (exts : List (List Char)) :
    ∀ l : List Entry,
      l.Pairwise (fun a b => lexLe b.name a.name = true) →
      ∀ e ∈ l, e.isDir = false →
        slicesContains exts (filepathExt e.name) = true →
        (∀ f ∈ l, f.isDir = false →
          slicesContains exts (filepathExt f.name) = true →
          lexLe f.name e.name = true) →
        findAux exts l = some e.name := by
  intro l
  induction l with
  | nil => intro _ e he; exact absurd he (List.not_mem_nil e)
  | cons x rest ih =>
    intro hp e he hdir hcont hmax
    rw [List.pairwise_cons] at hp
    obtain ⟨hx, hrest⟩ := hp
    by_cases hd : x.isDir
    · have hex : e ≠ x := fun hexq => by rw [hexq] at hdir; rw [hdir] at hd; exact Bool.noConfusion hd
      have he' : e ∈ rest := by
        rcases List.mem_cons.mp he with h | h
        · exact absurd h hex
        · exact h
      have := ih hrest e he' hdir hcont
        (fun f hf => hmax f (List.mem_cons_of_mem x hf))
      simp [findAux, hd, this]
    · by_cases hc : slicesContains exts (filepathExt x.name) = true
      · have hname : x.name = e.name := by
          rcases List.mem_cons.mp he with h | h
          · rw [h]
          · have h1 : lexLe x.name e.name = true :=
              hmax x (List.mem_cons_self x rest) (Bool.eq_false_iff.mpr hd) hc
            have h2 : lexLe e.name x.name = true := hx e h
            exact lexLe_antisymm x.name e.name h1 h2
        have hstep : findAux exts (x :: rest) = some x.name := by
          simp [findAux, hd, hc]
        rw [hstep, hname]
      · have hex : e ≠ x := fun hexq => by rw [hexq] at hcont; exact hc hcont
        have he' : e ∈ rest := by
          rcases List.mem_cons.mp he with h | h
          · exact absurd h hex
          · exact h
        have := ih hrest e he' hdir hcont
          (fun f hf => hmax f (List.mem_cons_of_mem x hf))
        simp [findAux, hd, hc, this]

/-- C3: with the listing in name-ascending order, findLatestFile
returns the directory path joined with the greatest non-directory name
whose extension is allowed, and the distinguished not-found result
(never an I/O error) when no entry qualifies. -/
theorem c3_correct (dir : List Char) (exts : List (List Char))
    (entries : List Entry)
    (hsorted : entries.Pairwise (fun a b => lexLe a.name b.name = true)) :
    ((∀ e ∈ entries, e.isDir = true ∨ extMatch exts e.name = false) →
        findLatestFile dir exts entries = .notFound)
    ∧ (∀ e ∈ entries, e.isDir = false → extMatch exts e.name = true →
        (∀ f ∈ entries, f.isDir = false → extMatch exts f.name = true →
          lexLe f.name e.name = true) →
        findLatestFile dir exts entries = .found (joinPath dir e.name)) := by
  constructor
  · intro h
    have h0 : findAux exts entries.reverse = none :=
      findAux_eq_none exts entries.reverse
        (fun e he => h e (List.mem_reverse.mp he))
    simp [findLatestFile, h0]
  · intro e he hdir hcont hmax
    have hrev : entries.reverse.Pairwise (fun a b => lexLe b.name a.name = true) := by
      rw [List.pairwise_reverse]
      exact hsorted
    have h0 : findAux exts entries.reverse = some e.name :=
      findAux_first exts entries.reverse hrev e (List.mem_reverse.mpr he)
        hdir hcont (fun f hf => hmax f (List.mem_reverse.mp hf))
    simp [findLatestFile, h0]

/-- C3 witness: entries a.log, b.log, c.txt listed in ascending order;
allow-list [".log"] selects b.log, [".txt"] selects c.txt, and [".csv"]
reports not-found. -/
theorem c3_witness :
    findLatestFile ['d'] [['.', 'l', 'o', 'g']]
        [⟨['a', '.', 'l', 'o', 'g'], false⟩, ⟨['b', '.', 'l', 'o', 'g'], false⟩,
         ⟨['c', '.', 't', 'x', 't'], false⟩]
      = .found ['d', '/', 'b', '.', 'l', 'o', 'g']
    ∧ findLatestFile ['d'] [['.', 't', 'x', 't']]
        [⟨['a', '.', 'l', 'o', 'g'], false⟩, ⟨['b', '.', 'l', 'o', 'g'], false⟩,
         ⟨['c', '.', 't', 'x', 't'], false⟩]
      = .found ['d', '/', 'c', '.', 't', 'x', 't']
    ∧ findLatestFile ['d'] [['.', 'c', 's', 'v']]
        [⟨['a', '.', 'l', 'o', 'g'], false⟩, ⟨['b', '.', 'l', 'o', 'g'], false⟩,
         ⟨['c', '.', 't', 'x', 't'], false⟩]
      = .notFound := by
  refine ⟨?_, ?_, ?_⟩
  · exact (c3_correct ['d'] [['.', 'l', 'o', 'g']] _ (by decide)).2
      ⟨['b', '.', 'l', 'o', 'g'], false⟩ (by decide) rfl (by decide) (by decide)
  · exact (c3_correct ['d'] [['.', 't', 'x', 't']] _ (by decide)).2
      ⟨['c', '.', 't', 'x', 't'], false⟩ (by decide) rfl (by decide) (by decide)
  · exact (c3_correct ['d'] [['.', 'c', 's', 'v']] _ (by decide)).1 (by decide)

/-! ## Claim C4 -/

/-- C4: when the recomputed candidate differs from the active
tailer's path, the create handler first fully stops the old tailer
(cancel, then await its worker's exit) and only afterwards constructs
the new one — configured with seek offset 0 from the start of the file
and the immediate flag — then starts its producer and attaches the
relay; and a producer started with the immediate flag performs its
first read pass (from its initial offset over the whole file) before
handling any watch event. -/
theorem c4_correct (st : DirState) (a : TailerCfg)
    (dir eventName p : List Char) (exts : List (List Char))
    (entries : List Entry)
    (hactive : st.active = some a)
    (hext : slicesContains exts (filepathExt eventName) = true)
    (hfind : findLatestFile dir exts entries = .found p)
    (hne : a.path ≠ p) :
    readOnCreateEvent st dir eventName false exts entries =
      (⟨some ⟨p, 0, .seekStart, true⟩⟩,
       [.cancelTailer a.path, .awaitTailer a.path,
        .createTailer ⟨p, 0, .seekStart, true⟩,
        .startProducer p, .attachRelay p], false)
    ∧ ∀ (c : List Char) (evs : List FsEvent),
        runProduceEmits true c ⟨0, 0⟩ evs
          = readLoop [] c ++ loopEmits ⟨c.length, 0⟩ evs := by
  constructor
  · simp [readOnCreateEvent, hext, hfind, hactive, hne]
  · intro c evs
    rfl

/-- C4 witness: active tailer on d/a.log (default end-seek, no
immediate flag), create event for b.log; the candidate becomes
d/b.log and the swap sequence runs. -/
theorem c4_witness :
    readOnCreateEvent
        ⟨some ⟨['d', '/', 'a', '.', 'l', 'o', 'g'], 0, .seekEnd, false⟩⟩
        ['d'] ['b', '.', 'l', 'o', 'g'] false [['.', 'l', 'o', 'g']]
        [⟨['a', '.', 'l', 'o', 'g'], false⟩, ⟨['b', '.', 'l', 'o', 'g'], false⟩] =
      (⟨some ⟨['d', '/', 'b', '.', 'l', 'o', 'g'], 0, .seekStart, true⟩⟩,
       [.cancelTailer ['d', '/', 'a', '.', 'l', 'o', 'g'],
        .awaitTailer ['d', '/', 'a', '.', 'l', 'o', 'g'],
        .createTailer ⟨['d', '/', 'b', '.', 'l', 'o', 'g'], 0, .seekStart, true⟩,
        .startProducer ['d', '/', 'b', '.', 'l', 'o', 'g'],
        .attachRelay ['d', '/', 'b', '.', 'l', 'o', 'g']], false) :=
  (c4_correct ⟨some ⟨['d', '/', 'a', '.', 'l', 'o', 'g'], 0, .seekEnd, false⟩⟩
    ⟨['d', '/', 'a', '.', 'l', 'o', 'g'], 0, .seekEnd, false⟩
    ['d'] ['b', '.', 'l', 'o', 'g'] ['d', '/', 'b', '.', 'l', 'o', 'g']
    [['.', 'l', 'o', 'g']]
    [⟨['a', '.', 'l', 'o', 'g'], false⟩, ⟨['b', '.', 'l', 'o', 'g'], false⟩]
    rfl (by decide) (by decide) (by decide)).1

/-! ## Claim C5 -/

/-- C5: when the recomputed candidate equals the active tailer's
path, the create handler is a no-op — state unchanged, no stop, no
construction, no emission, no error — and handling the same
notification twice equals handling it once. -/
theorem c5_correct (st : DirState) (a : TailerCfg)
    (dir eventName : List Char) (exts : List (List Char))
    (entries : List Entry)
    (hactive : st.active = some a)
    (hext : slicesContains exts (filepathExt eventName) = true)
    (hfind : findLatestFile dir exts entries = .found a.path) :
    readOnCreateEvent st dir eventName false exts entries = (st, [], false)
    ∧ readOnCreateEvent
        (readOnCreateEvent st dir eventName false exts entries).1
        dir eventName false exts entries = (st, [], false) := by
  have h1 : readOnCreateEvent st dir eventName false exts entries
      = (st, [], false) := by
    simp [readOnCreateEvent, hext, hfind, hactive]
  exact ⟨h1, by rw [h1]; exact h1⟩

/-- C5 witness: active tailer already on d/b.log, redundant create
notification for b.log: nothing happens, twice as well as once. -/
theorem c5_witness :
    readOnCreateEvent
        ⟨some ⟨['d', '/', 'b', '.', 'l', 'o', 'g'], 0, .seekStart, true⟩⟩
        ['d'] ['b', '.', 'l', 'o', 'g'] false [['.', 'l', 'o', 'g']]
        [⟨['b', '.', 'l', 'o', 'g'], false⟩] =
      (⟨some ⟨['d', '/', 'b', '.', 'l', 'o', 'g'], 0, .seekStart, true⟩⟩, [], false) :=
  (c5_correct ⟨some ⟨['d', '/', 'b', '.', 'l', 'o', 'g'], 0, .seekStart, true⟩⟩
    ⟨['d', '/', 'b', '.', 'l', 'o', 'g'], 0, .seekStart, true⟩
    ['d'] ['b', '.', 'l', 'o', 'g'] [['.', 'l', 'o', 'g']]
    [⟨['b', '.', 'l', 'o', 'g'], false⟩]
    rfl (by decide) (by decide)).1

/-! ## Claim C6 -/

/-- C6: the claim asserts that every resource acquired by earlier
start-up steps is released before the start operation returns an
error.  False: when fsnotify.NewWatcher fails after a successful
open/stat/seek, producer returns the error with the file handle still
open — initFile's handle is only ever closed by runProduce's deferred
cleanup, which never runs on a failed start. -/
theorem c6_counterexample :
    producer ⟨true, true, false, true, false, true⟩
      = ⟨true, false, false, some .watcherNewErr⟩
    ∧ ¬(producer ⟨true, true, false, true, false, true⟩).fileOpen = false := by
  decide

/-- C6 (amended): any failing start-up step makes producer return that
step's error synchronously, with no retry and no worker spawned; but
the resources acquired by earlier steps are not released: the file
handle stays open whenever os.Open succeeded, and the watcher stays
open whenever fsnotify.NewWatcher succeeded, even when a later step
fails. -/
theorem c6_amended (o : InitOutcome) :
    ((producer o).err = none ↔
      (o.openOk = true ∧ o.statOk = true ∧ o.pathIsDir = false ∧
       o.seekOk = true ∧ o.watcherNewOk = true ∧ o.watchAddOk = true))
    ∧ ((producer o).err ≠ none → (producer o).workerSpawned = false)
    ∧ (producer o).fileOpen = o.openOk
    ∧ (producer o).watcherOpen =
        (o.openOk && o.statOk && !o.pathIsDir && o.seekOk && o.watcherNewOk) := by
  obtain ⟨b1, b2, b3, b4, b5, b6⟩ := o
  revert b1 b2 b3 b4 b5 b6
  decide

/-- C6 witness: watcher.Add fails after everything else succeeded; an
error is returned, no worker runs, the file handle is still open. -/
theorem c6_witness :
    (producer ⟨true, true, false, true, true, false⟩).err ≠ none
    ∧ (producer ⟨true, true, false, true, true, false⟩).workerSpawned = false
    ∧ (producer ⟨true, true, false, true, true, false⟩).fileOpen = true := by
  have h := c6_amended ⟨true, true, false, true, true, false⟩
  have herr : (producer ⟨true, true, false, true, true, false⟩).err ≠ none := by
    intro hnone
    exact absurd (h.1.mp hnone).2.2.2.2.2 (by decide)
  exact ⟨herr, h.2.1 herr, h.2.2.1⟩

/-! ## Claim C7 -/

/-- Every run of the worker's loop produces some line outputs
followed by at most one delivered error. -/
lemma loopWork_shape :
    ∀ (ins : List FtIn) (full : Bool) (st : FileState),
      ∃ (ls : List (List Char)) (e : Option Nat),
        loopWork full st ins =
          ls.map FtOut.line ++
            (match e with
             | some c => [FtOut.deliverErr c]
             | none => []) := by
  intro ins
  induction ins with
  | nil => intro full st; exact ⟨[], none, rfl⟩
  | cons i rest ih =>
    intro full st
    cases i with
    | ctxDone => exact ⟨[], none, rfl⟩
    | eventsClosed => exact ⟨[], none, rfl⟩
    | watchErrsClosed => exact ⟨[], none, rfl⟩
    | fsEvOk e =>
      rcases hh : handleEvent st e with ⟨em, assigns, st'⟩
      obtain ⟨ls, eo, h⟩ := ih full st'
      refine ⟨em ++ ls, eo, ?_⟩
      simp [loopWork, hh, h]
    | fsEvErr pre code =>
      cases hf : full
      · exact ⟨pre, some code, by simp [loopWork, sendErrorOuts]⟩
      · exact ⟨pre, none, by simp [loopWork, sendErrorOuts]⟩
    | watchErr code =>
      cases hf : full
      · exact ⟨[], some code, by simp [loopWork, sendErrorOuts]⟩
      · exact ⟨[], none, by simp [loopWork, sendErrorOuts]⟩

/-- C7: every complete run of a tailer worker delivers its lines, then
at most one terminal error, then closes the line stream and the error
stream, in that order; nothing follows the closes, and any error
beyond the first is dropped by the non-blocking sendError. -/
theorem c7_correct (st : FileState) (ins : List FtIn) :
    ∃ (ls : List (List Char)) (e : Option Nat),
      runProduceOuts st ins =
        ls.map FtOut.line ++
          (match e with
           | some c => [FtOut.deliverErr c]
           | none => []) ++
          [FtOut.closeLines, FtOut.closeErrors] := by
  obtain ⟨ls, e, h⟩ := loopWork_shape ins false st
  exact ⟨ls, e, by simp [runProduceOuts, h]⟩

/-! ## Claim C8 -/

/-- One offset update either does not decrease the offset or is an
explicit reset to zero. -/
def offsetStep (a b : Nat) : Prop := a ≤ b ∨ b = 0

/-- The offset assignments of one event keep offsetStep, and the last
assigned value (or the untouched offset) is the new state's offset. -/
lemma stepChain (st : FileState) (e : FsEvent) :
    List.Chain' offsetStep (st.lastOffset :: (handleEvent st e).2.1)
    ∧ (st.lastOffset :: (handleEvent st e).2.1).getLast?
        = some (handleEvent st e).2.2.lastOffset := by
  cases e with
  | write c =>
    by_cases h1 : st.lastOffset = c.length
    · constructor
      · simp [handleEvent, readOnWriteEvent, h1]
      · simp [handleEvent, readOnWriteEvent, h1]
    · by_cases h2 : st.lastOffset < c.length
      · constructor
        · simp [handleEvent, readOnWriteEvent, h1, h2, List.chain'_cons,
            offsetStep]
          omega
        · simp [handleEvent, readOnWriteEvent, h1, h2]
      · constructor
        · simp [handleEvent, readOnWriteEvent, h1, h2, List.chain'_cons,
            offsetStep]
        · simp [handleEvent, readOnWriteEvent, h1, h2]
  | rotate c =>
    constructor
    · simp [handleEvent, readOnRotateEvent, List.chain'_cons, offsetStep]
    · simp [handleEvent, readOnRotateEvent]

/-- Along any event trace, consecutive offset assignments never
decrease except explicit resets to zero. -/
lemma runChain (evs : List FsEvent) :
    ∀ st : FileState,
      List.Chain' offsetStep (st.lastOffset :: runAssigns st evs) := by
  induction evs with
  | nil => intro st; simp [runAssigns]
  | cons e rest ih =>
    intro st
    rcases hh : handleEvent st e with ⟨em, assigns, st'⟩
    have hstep := stepChain st e
    rw [hh] at hstep
    have hrest := ih st'
    have hunf : runAssigns st (e :: rest) = assigns ++ runAssigns st' rest := by
      simp [runAssigns, hh]
    rw [hunf, show st.lastOffset :: (assigns ++ runAssigns st' rest)
      = (st.lastOffset :: assigns) ++ runAssigns st' rest from rfl]
    rw [List.chain'_cons'] at hrest
    apply List.Chain'.append hstep.1 hrest.2
    intro x hx y hy
    rw [hstep.2, Option.mem_some_iff] at hx
    exact hx ▸ hrest.1 y hy

/-- A zero offset is assigned exactly on a rotation reopen or on a
write notification that finds the offset past the file's size. -/
lemma zeroAssign_iff (st : FileState) (ev : FsEvent) :
    0 ∈ (handleEvent st ev).2.1 ↔
      ((∃ c, ev = FsEvent.rotate c)
        ∨ ∃ c, ev = FsEvent.write c ∧ c.length < st.lastOffset) := by
  cases ev with
  | write c =>
    by_cases h1 : st.lastOffset = c.length
    · simp only [handleEvent, readOnWriteEvent, if_pos h1]
      simp
      omega
    · by_cases h2 : st.lastOffset < c.length
      · simp only [handleEvent, readOnWriteEvent, if_neg h1, if_pos h2]
        simp
        omega
      · have h3 : c.length < st.lastOffset := by omega
        simp only [handleEvent, readOnWriteEvent, if_neg h1,
          if_neg h2]
        simp
        exact h3
  | rotate c =>
    simp [handleEvent, readOnRotateEvent]

/-- C8: over any trace of write/rotate notifications, the persisted
offset never decreases from one assignment to the next except for an
assignment of zero, and zero is assigned exactly when a write
notification finds the offset beyond the current size (truncation
detected) or the file is reopened on a rotation signal. -/
theorem c8_correct (st : FileState) :
    (∀ evs : List FsEvent,
      List.Chain' offsetStep (st.lastOffset :: runAssigns st evs))
    ∧ ∀ ev : FsEvent,
        0 ∈ (handleEvent st ev).2.1 ↔
          ((∃ c, ev = FsEvent.rotate c)
            ∨ ∃ c, ev = FsEvent.write c ∧ c.length < st.lastOffset) :=
  ⟨fun evs => runChain evs st, fun ev => zeroAssign_iff st ev⟩

/-! ## Claim C10 -/

lemma slicesContains_iff (l : List (List Char)) (x : List Char) :
    slicesContains l x = true ↔ x ∈ l := by
  induction l with
  | nil => simp [slicesContains]
  | cons e es ih =>
    by_cases h : e = x
    · simp [slicesContains, h]
    · simp only [slicesContains, if_neg h, ih, List.mem_cons]
      constructor
      · exact Or.inr
      · rintro (hxe | hxs)
        · exact absurd hxe.symm h
        · exact hxs

lemma extAux_shape :
    ∀ (l acc : List Char),
      extAux acc l = [] ∨ ∃ rest, extAux acc l = '.' :: rest := by
  intro l
  induction l with
  | nil => intro acc; exact Or.inl rfl
  | cons c cs ih =>
    intro acc
    by_cases h1 : c = '/'
    · simp [extAux, h1]
    · by_cases h2 : c = '.'
      · exact Or.inr ⟨acc, by simp [extAux, h1, h2]⟩
      · simpa [extAux, h1, h2] using ih (c :: acc)

lemma extAux_no_dot :
    ∀ (l acc : List Char), (∀ c ∈ l, c ≠ '.') → extAux acc l = [] := by
  intro l
  induction l with
  | nil => intro acc _; rfl
  | cons c cs ih =>
    intro acc h
    have hc : c ≠ '.' := h c (List.mem_cons_self c cs)
    by_cases h1 : c = '/'
    · simp [extAux, h1]
    · simp only [extAux, if_neg h1, if_neg hc]
      exact ih (c :: acc) (fun x hx => h x (List.mem_cons_of_mem c hx))

/-- C10: the claim asserts that a name containing no dot matches
nothing.  False: the allow-list produced by splitting an empty -ext
flag value on commas is [""], filepath.Ext of a dot-less name is "",
and the two compare equal, so README matches. -/
theorem c10_counterexample :
    ('.' ∉ ['R', 'E', 'A', 'D', 'M', 'E'])
    ∧ extMatch (parseExtensions []) ['R', 'E', 'A', 'D', 'M', 'E'] = true := by
  decide

/-- C10 (amended): a name matches iff its filepath.Ext — empty or
dot-initial by construction — is string-equal, case-sensitively, to an
allow-list element; hence an element without a leading dot (for
example "log", taken verbatim from the -ext flag) matches no name,
while a name without a dot matches exactly when the empty string is an
allow-list element (for example from an empty -ext value or a trailing
comma); for a multi-suffix name such as app.log.1 only ".1" is
compared. -/
theorem c10_amended (exts : List (List Char)) (name : List Char) :
    (extMatch exts name = true ↔ filepathExt name ∈ exts)
    ∧ (filepathExt name = [] ∨ ∃ rest, filepathExt name = '.' :: rest)
    ∧ (∀ e ∈ exts, e ≠ [] → e.head? ≠ some '.' → filepathExt name ≠ e)
    ∧ ('.' ∉ name → (extMatch exts name = true ↔ [] ∈ exts)) := by
  have hshape : filepathExt name = [] ∨ ∃ rest, filepathExt name = '.' :: rest :=
    extAux_shape name.reverse []
  refine ⟨slicesContains_iff exts (filepathExt name), hshape, ?_, ?_⟩
  · intro e _ hne hhead heq
    rcases hshape with h | ⟨rest, h⟩
    · rw [heq] at h
      exact hne h
    · rw [heq] at h
      apply hhead
      rw [h]
      rfl
  · intro hdot
    have h0 : filepathExt name = [] :=
      extAux_no_dot name.reverse []
        (fun c hc hcd => hdot (by rw [hcd] at hc; exact List.mem_reverse.mp hc))
    have hiff := slicesContains_iff exts (filepathExt name)
    rw [h0] at hiff
    show slicesContains exts (filepathExt name) = true ↔ [] ∈ exts
    rw [h0]
    exact hiff

/-- C10 witness: for app.log.1 only ".1" is compared, so it matches
the allow-list [".1"]. -/
theorem c10_witness :
    extMatch [['.', '1']] ['a', 'p', 'p', '.', 'l', 'o', 'g', '.', '1'] = true :=
  (c10_amended [['.', '1']]
    ['a', 'p', 'p', '.', 'l', 'o', 'g', '.', '1']).1.mpr (by decide)

end Rotail
